import Mathlib

/-!
Verification of the zipserve repository (Go): root/prefix resolution over a
ZIP-backed virtual filesystem, prefix normalization, HTTP mounting and the
serve lifecycle.  Strings are embedded as `List Char` (Go strings are byte
sequences; all paths involved are ASCII so byte order and scalar order
coincide).  The authoritative source is src/cmd/root.go together with the
helper functions of the refactored revision (findRootDirectory,
readPrefixFromFile, normalizePrefix, openBrowser).
-/

/-- A file or directory base name, as a character list (Go string). -/
abbrev Name := List Char

/-- A slash-separated path, kept as its list of components.  The archive's
logical root `"."` is represented by `[]`; Go's `path.Dir` of a one-component
path returns `"."`, which is `List.dropLast` here. -/
abbrev FsPath := List Name

/-- String literal to character list helper. -/
def strL (s : String) : List Char := s.toList

/-- Go `strings.HasPrefix s pre` (src uses it with `"/"`). -/
def goStartsWith (s pre : List Char) : Bool := pre.isPrefixOf s

/-- Go `strings.HasSuffix s suf` (src uses it with `"/"`). -/
def goEndsWith (s suf : List Char) : Bool := suf.isSuffixOf s

/-- `normalizePrefix` from src/unnamed/part_001 lines 85-93 (inlined at
src/cmd/root.go lines 95-101): prepend a slash when the string does not start
with one, then append a slash when the (possibly extended) string does not end
with one.  No collapsing of repeated slashes takes place. -/
def normalizePrefix (p : List Char) : List Char :=
  let p1 := if goStartsWith p (strL "/") then p else strL "/" ++ p
  if goEndsWith p1 (strL "/") then p1 else p1 ++ strL "/"

/-- Go `unicode.IsSpace` restricted to the Latin-1 white space runes that
`strings.TrimSpace` handles in its fast path; the higher Unicode space runes
never occur in the inputs considered here. -/
def goIsSpace (c : Char) : Bool :=
  c = ' ' || c = '\t' || c = '\n' || (c = (Char.ofNat 11)) ||
  (c = (Char.ofNat 12)) || c = '\r' || (c = (Char.ofNat 133)) ||
  (c = (Char.ofNat 160))

/-- Go `strings.TrimSpace`: drop white space from both ends. -/
def trimSpace (l : List Char) : List Char :=
  ((l.dropWhile goIsSpace).reverse.dropWhile goIsSpace).reverse

/-- The first line a `bufio.Scanner` with the default `ScanLines` split
produces: the bytes up to the first newline, with a single trailing carriage
return dropped; at end of input the remainder is returned as is. -/
def scanFirstLine (bytes : List Char) : List Char :=
  let line := bytes.takeWhile (fun c => ¬ (c = '\n'))
  match line.getLast? with
  | some '\r' => line.dropLast
  | _ => line

-- The marker file name, `prefixFileName` in src/cmd/root.go.
def markerName : Name := strL ".prefix"

/-!
## The archive's filesystem view

`archive/zip`'s `Reader` implements `io/fs.FS`: directories are synthesized
from entry paths, and `ReadDir` presents each directory's children sorted by
base name (bytewise string order).  We model the view as a finite tree; the
root node plays `"."` and is reported with name `"."` by the walk, as Go's
`fs.WalkDir(z, ".")` does.  The sortedness of children, guaranteed by the zip
filesystem, is the `wellSorted` predicate below and is assumed where an order
claim depends on it.
-/

/-- A node of the archive's filesystem view: base name, directory flag, file
content (empty for directories) and children (empty for files). -/
inductive FsTree where
| node (name : Name) (isDir : Bool) (content : List Char) (children : List FsTree)

def FsTree.name : FsTree → Name
| .node n _ _ _ => n

def FsTree.isDir : FsTree → Bool
| .node _ d _ _ => d

def FsTree.content : FsTree → List Char
| .node _ _ c _ => c

def FsTree.children : FsTree → List FsTree
| .node _ _ _ cs => cs

/-- Find the child with the given base name (first match). -/
def findChild (cs : List FsTree) (n : Name) : Option FsTree :=
  cs.find? (fun c => c.name = n)

/-- Resolve a slash path (as components) inside the view; `none` models a
"file does not exist" error from `Open`/`Stat`. -/
def lookupPath (t : FsTree) : FsPath → Option FsTree
| [] => some t
| n :: rest =>
  match findChild t.children n with
  | none => none
  | some c => lookupPath c rest

/-- Bytewise lexicographic order on names, Go's `<` on strings. -/
def nameLt : Name → Name → Bool
| [], [] => false
| [], _ :: _ => true
| _ :: _, [] => false
| a :: as, b :: bs => if a < b then true else if a = b then nameLt as bs else false

/-- Lexicographic order on component paths induced by `nameLt`: the order in
which a depth-first walk with sorted children visits paths. -/
def pathLt : FsPath → FsPath → Bool
| [], [] => false
| [], _ :: _ => true
| _ :: _, [] => false
| a :: as, b :: bs => if nameLt a b then true else if a = b then pathLt as bs else false

mutual

/-- The sequence of `(path, base name)` pairs `fs.WalkDir` presents, in visit
order: a node first, then its children in list order (the zip filesystem's
`ReadDir` order).  The root contributes path `[]` (rendered `"."`). -/
def walkEnum : FsTree → FsPath → List (FsPath × Name)
| .node n _ _ cs, p => (p, n) :: walkEnumList cs p

def walkEnumList : List FsTree → FsPath → List (FsPath × Name)
| [], _ => []
| c :: cs, p => walkEnum c (p ++ [c.name]) ++ walkEnumList cs p

end

/-- Every earlier element is `nameLt`-below every later one. -/
def pairwiseLtB : List Name → Bool
| [] => true
| n :: ns => ns.all (fun m => nameLt n m) && pairwiseLtB ns

mutual

/-- The zip filesystem presents every directory's children sorted strictly by
base name.  `pairwiseLtB` is the Bool form of that invariant. -/
def wellSorted : FsTree → Bool
| .node _ _ _ cs => pairwiseLtB (cs.map FsTree.name) && wellSortedList cs

def wellSortedList : List FsTree → Bool
| [] => true
| c :: cs => wellSorted c && wellSortedList cs

end

mutual

/-- The walk body of `findRootDirectory` (src/unnamed/part_001 lines 40-58,
inlined at src/cmd/root.go lines 54-71): visit a node; when its base name is
`.prefix`, record `path.Dir` of its path and return `fs.SkipAll`
(short-circuit); otherwise continue with the children in order. -/
def findMarkerTree : FsTree → FsPath → Option FsPath
| .node n _ _ cs, p =>
  if n = markerName then some p.dropLast else findMarkerList cs p

def findMarkerList : List FsTree → FsPath → Option FsPath
| [], _ => none
| c :: cs, p =>
  match findMarkerTree c (p ++ [c.name]) with
  | some d => some d
  | none => findMarkerList cs p

end

/-- `findRootDirectory`: the directory of the first `.prefix` entry found by
the walk, defaulting to `"."` (here `[]`) when there is none. -/
def findRootDirectory (t : FsTree) : FsPath :=
  match findMarkerTree t [] with
  | some d => d
  | none => []

/-- The Root Resolver as the spec words it: enumerate the whole tree in walk
order, take the first entry whose base name is the marker, and use its parent
directory; default to the logical root. -/
def findRootDirectorySpec (t : FsTree) : FsPath :=
  match (walkEnum t []).find? (fun e => e.2 = markerName) with
  | some e => e.1.dropLast
  | none => []

/-- The paths of all `.prefix` entries, in walk order. -/
def markerPaths (t : FsTree) : List FsPath :=
  ((walkEnum t []).filter (fun e => e.2 = markerName)).map (fun e => e.1)

/-!
## The serve pipeline (src/cmd/root.go, `serve`)

The run is embedded as a pure step function from the flag values and an
environment (archive open result, marker readability, listener binding,
browser and shutdown outcomes) to the ordered list of observable events plus
the terminal outcome.  `log.Fatalf` (logrus) calls `os.Exit`, which
terminates the process without running deferred functions: a fatal event ends
the trace at once and in particular skips the deferred `z.Close()`.
-/

/-- The flag values reaching `serve`.  `dir = none` is the empty
`--directory` flag (auto-search); `some d` is an explicit directory, as
components. -/
structure Config where
  pfx : List Char
  dir : Option FsPath
  skipBrowser : Bool

/-- The environment of one run: whether `zip.OpenReader` succeeds, the
archive's filesystem view, whether scanning the marker file hits a read
error, whether `ListenAndServe` fails, whether `browser.OpenURL` fails, and
whether `server.Shutdown` reports an error. -/
structure World where
  zipOk : Bool
  tree : FsTree
  markerReadErr : Bool
  bindErr : Bool
  browserErr : Bool
  shutdownErr : Bool

/-- Observable events of a run, in order. -/
inductive Event where
| opened
| warnMarker
| warnBrowser
| routeRegistered (pfx : List Char)
| listen
| shutdownForced
| shutdownGraceful
| closed
deriving DecidableEq

/-- Terminal outcome: normal return from `serve`, or process termination via
`log.Fatalf`. -/
inductive Outcome where
| normalExit
| fatalExit
deriving DecidableEq

structure RunResult where
  events : List Event
  outcome : Outcome
  rdir : FsPath
  rpfx : List Char

/-- `readPrefixFromFile` (src/unnamed/part_001 lines 62-82, inlined at
src/cmd/root.go lines 75-93): open `path.Join(directory, ".prefix")`; any
open error yields the empty string silently; a scanner read error (also hit
when the entry is a directory) yields the empty string with a warning; an
empty file scans no line and yields the empty string; otherwise the first
line, white space trimmed.  The second component records whether the warning
was logged. -/
def readPrefixFromFile (t : FsTree) (readErr : Bool) (directory : FsPath) :
    List Char × Bool :=
  match lookupPath t (directory ++ [markerName]) with
  | none => ([], false)
  | some node =>
    if node.isDir || readErr then ([], true)
    else if node.content = [] then ([], false)
    else (trimSpace (scanFirstLine node.content), false)

/-- The Resolved Directory: the explicit flag verbatim when non-empty, else
the marker search. -/
def resolveDir (cfg : Config) (t : FsTree) : FsPath :=
  match cfg.dir with
  | some d => d
  | none => findRootDirectory t

/-- The raw prefix and the marker warning flag: the explicit flag verbatim
when non-empty, else the marker file's first line. -/
def resolveRawPfx (cfg : Config) (w : World) (d : FsPath) : List Char × Bool :=
  if cfg.pfx = [] then readPrefixFromFile w.tree w.markerReadErr d
  else (cfg.pfx, false)

/-- `fs.Stat(z, directory)` succeeding with a directory entry. -/
def validDir (t : FsTree) (d : FsPath) : Bool :=
  match lookupPath t d with
  | some node => node.isDir
  | none => false

/-- The `serve` function of src/cmd/root.go as a step sequence.  Branches in
source order: open (fatal on failure, before the deferred close is
registered); directory resolution; prefix resolution and normalization;
directory validation (fatal); `fs.Sub` (cannot fail once the stat succeeded);
route registration; listener start on the goroutine; browser opening (warning
only); wait for interrupt or listener error (listener error is fatal);
graceful shutdown; return, which runs the deferred close. -/
def serve (cfg : Config) (w : World) : RunResult :=
  if w.zipOk then
    let d := resolveDir cfg w.tree
    let rawWarn := resolveRawPfx cfg w d
    let pfx := normalizePrefix rawWarn.1
    let ev0 := Event.opened :: (if rawWarn.2 then [Event.warnMarker] else [])
    if validDir w.tree d then
      let ev1 := ev0 ++ [Event.routeRegistered pfx, Event.listen] ++
        (if !cfg.skipBrowser && w.browserErr then [Event.warnBrowser] else [])
      if w.bindErr then
        ⟨ev1, .fatalExit, d, pfx⟩
      else
        ⟨ev1 ++
          [if w.shutdownErr then Event.shutdownForced else Event.shutdownGraceful] ++
          [Event.closed], .normalExit, d, pfx⟩
    else
      ⟨ev0, .fatalExit, d, pfx⟩
  else
    ⟨[], .fatalExit, [], []⟩

/-!
## The HTTP mount (src/cmd/root.go lines 109-114)

`http.Handle(prefix, http.StripPrefix(prefix, http.FileServer(http.FS(fileSystem))))`
registers one pattern on `net/http`'s `ServeMux`.  `ServeMux.Handler` first
cleans the request path (`cleanPath` below) and answers uncleaned paths with
a permanent redirect to the cleaned form; when the cleaned path plus a
trailing slash equals a registered subtree pattern, it redirects to that
slashed form; otherwise a pattern ending in a slash matches every path it is
a prefix of, and unmatched paths get the mux's not-found handler.  On a
match `StripPrefix` removes the prefix from the request path and
`FileServer` resolves the remainder in the filesystem view: a path ending in
the index page `/index.html` is canonicalized with a redirect to `./`, a
regular file answers with its content, and the directory branches (index
document, listing) stay below this abstraction as not found — no claim here
rests on them.
-/

inductive HResp where
| ok (body : List Char)
| redirect (target : List Char)
| notFound
deriving DecidableEq

/-- Split a slash path string into components (Go `path` semantics for the
clean, relative paths `FileServer` produces here). -/
def splitPath (s : List Char) : FsPath := s.splitOn '/'

/-- One pass of Go `path.Clean` over the slash-split segments of a rooted
path: empty and `.` segments vanish, `..` pops the previous segment (and is
dropped at the root). -/
def cleanSegs (segs : List (List Char)) : List (List Char) :=
  segs.foldl
    (fun acc seg =>
      if seg = [] then acc
      else if seg = ['.'] then acc
      else if seg = ['.', '.'] then acc.dropLast
      else acc ++ [seg])
    []

/-- `net/http`'s `cleanPath`: empty becomes `/`, a missing leading slash is
added, `path.Clean` is applied, and a trailing slash removed by `Clean` is
put back (unless the result is `/` itself). -/
def cleanPath (s : List Char) : List Char :=
  if s = [] then strL "/"
  else
    let s1 := if goStartsWith s (strL "/") then s else '/' :: s
    let segs := cleanSegs (s1.splitOn '/')
    let np := if segs = [] then strL "/" else '/' :: List.intercalate (strL "/") segs
    if goEndsWith s1 (strL "/") && ¬ (np = strL "/") then np ++ strL "/" else np

/-- `FileServer` on the sub filesystem, applied to the stripped request
path: the server works on the path with a leading slash restored; a path
ending in `/index.html` is redirected to `./`; a regular file answers with
its content; the directory branches are collapsed to not found (no claim
rests on them). -/
def serveFile (view : FsTree) (rest : List Char) : HResp :=
  if goEndsWith ('/' :: rest) (strL "/index.html") then .redirect (strL "./")
  else
    match lookupPath view (splitPath rest) with
    | some node => if node.isDir then .notFound else .ok node.content
    | none => .notFound

/-- The patterns registered on the mux by the mount: exactly the one call to
`http.Handle`. -/
def mountRoutes (pfx : List Char) : List (List Char) := [pfx]

/-- One request through the mux with the single registered pattern `pfx`,
mirroring `ServeMux.Handler`: redirect to the slashed path when cleaning the
path and adding a trailing slash hits the registered subtree pattern (the
pattern itself is then not an exact match, being strictly longer); redirect
to the cleaned path when cleaning changed the path; otherwise dispatch by
prefix match to `StripPrefix` + `FileServer`, and to not-found when no
pattern matches. -/
def handleRequest (pfx : List Char) (view : FsTree) (reqPath : List Char) : HResp :=
  let path := cleanPath reqPath
  if path ++ strL "/" = pfx then .redirect (path ++ strL "/")
  else if ¬ (path = reqPath) then .redirect path
  else if pfx.isPrefixOf path then serveFile view (path.drop pfx.length)
  else .notFound

/-- The string starts with `/` and its second character, when there is one,
is not `/` (the "exactly one leading slash" reading). -/
def oneLeadingSlash : List Char → Bool
| '/' :: rest =>
  match rest with
  | c :: _ => !(c = '/')
  | [] => true
| _ => false

/-- The string ends with `/` and the character before, when there is one, is
not `/`. -/
def oneTrailingSlash (s : List Char) : Bool := oneLeadingSlash s.reverse

/-!
## Lemmas about prefix normalization
-/

theorem startsWith_slash_iff (s : List Char) :
    goStartsWith s (strL "/") = true ↔ ∃ u, s = '/' :: u := by
  cases s with
  | nil => simp [goStartsWith, strL, List.isPrefixOf]
  | cons a u =>
    simp only [goStartsWith, strL, List.isPrefixOf, Bool.and_eq_true, beq_iff_eq]
    constructor
    · rintro ⟨h, -⟩
      exact ⟨u, by rw [h]⟩
    · rintro ⟨v, hv⟩
      cases hv
      exact ⟨rfl, trivial⟩

theorem endsWith_slash_iff (s : List Char) :
    goEndsWith s (strL "/") = true ↔ ∃ u, s = u ++ ['/'] := by
  have h1 : goEndsWith s (strL "/") = goStartsWith s.reverse (strL "/") := by
    simp [goEndsWith, goStartsWith, List.isSuffixOf, strL]
  rw [h1, startsWith_slash_iff]
  constructor
  · rintro ⟨u, hu⟩
    refine ⟨u.reverse, ?_⟩
    have := congrArg List.reverse hu
    simpa using this
  · rintro ⟨u, hu⟩
    exact ⟨u.reverse, by simp [hu]⟩

theorem normalizePrefix_startsWith (p : List Char) :
    goStartsWith (normalizePrefix p) (strL "/") = true := by
  rw [normalizePrefix]
  by_cases h : goStartsWith p (strL "/") = true
  · obtain ⟨u, hu⟩ := (startsWith_slash_iff p).mp h
    simp only [h, if_true]
    by_cases h2 : goEndsWith p (strL "/") = true
    · simp [h2, h]
    · simp only [h2, if_false]
      exact (startsWith_slash_iff _).mpr ⟨u ++ strL "/", by simp [hu]⟩
  · simp only [Bool.not_eq_true] at h
    simp only [h, Bool.false_eq_true, if_false]
    by_cases h2 : goEndsWith (strL "/" ++ p) (strL "/") = true
    · simp only [h2, if_true]
      exact (startsWith_slash_iff _).mpr ⟨p, rfl⟩
    · simp only [h2, if_false]
      exact (startsWith_slash_iff _).mpr ⟨p ++ strL "/", rfl⟩

theorem normalizePrefix_endsWith (p : List Char) :
    goEndsWith (normalizePrefix p) (strL "/") = true := by
  rw [normalizePrefix]
  by_cases h : goStartsWith p (strL "/") = true
  · simp only [h, if_true]
    by_cases h2 : goEndsWith p (strL "/") = true
    · simp [h2]
    · simp only [h2, if_false]
      exact (endsWith_slash_iff _).mpr ⟨p, rfl⟩
  · simp only [Bool.not_eq_true] at h
    simp only [h, Bool.false_eq_true, if_false]
    by_cases h2 : goEndsWith (strL "/" ++ p) (strL "/") = true
    · simp [h2]
    · simp only [h2, if_false]
      exact (endsWith_slash_iff _).mpr ⟨strL "/" ++ p, rfl⟩

theorem normalizePrefix_fixed (p : List Char)
    (h1 : goStartsWith p (strL "/") = true) (h2 : goEndsWith p (strL "/") = true) :
    normalizePrefix p = p := by
  rw [normalizePrefix]
  simp [h1, h2]

/-- C5: `normalizePrefix` is idempotent, and the spec's three concrete
equations `normalize("") = "/"`, `normalize("x") = "/x/"`,
`normalize("/x/") = "/x/"` hold. -/
theorem C5_normalize_idempotent :
    (∀ p : List Char, normalizePrefix (normalizePrefix p) = normalizePrefix p) ∧
    normalizePrefix (strL "") = strL "/" ∧
    normalizePrefix (strL "x") = strL "/x/" ∧
    normalizePrefix (strL "/x/") = strL "/x/" :=
  ⟨fun p => normalizePrefix_fixed _ (normalizePrefix_startsWith p) (normalizePrefix_endsWith p),
   by decide, by decide, by decide⟩

/-- C1, counterexample: on the input `"//x//"` named by the claim,
`normalizePrefix` returns `"//x//"` unchanged, which starts and ends with two
slashes, not one: doubled boundary slashes are not collapsed. -/
theorem C1_counterexample :
    normalizePrefix (strL "//x//") = strL "//x//" ∧
    oneLeadingSlash (normalizePrefix (strL "//x//")) = false ∧
    oneTrailingSlash (normalizePrefix (strL "//x//")) = false := by
  decide

/-- C1, amended: the normalized prefix starts with at least one leading `/`
and ends with at least one trailing `/`; a slash is added at a boundary only
when missing there, and a string already slashed at both ends — repeated
slashes included — is returned unchanged, so doubled slashes are preserved,
not collapsed. -/
theorem C1_normalize_boundary_slashes (p : List Char) :
    goStartsWith (normalizePrefix p) (strL "/") = true ∧
    goEndsWith (normalizePrefix p) (strL "/") = true ∧
    (goStartsWith p (strL "/") = true → goEndsWith p (strL "/") = true →
      normalizePrefix p = p) :=
  ⟨normalizePrefix_startsWith p, normalizePrefix_endsWith p,
   fun h1 h2 => normalizePrefix_fixed p h1 h2⟩

/-- Witness for C1's amended theorem at the claim's own input. -/
theorem C1_witness : normalizePrefix (strL "//x//") = strL "//x//" :=
  (C1_normalize_boundary_slashes (strL "//x//")).2.2 (by decide) (by decide)

/-!
## Concrete archives used by witnesses and counterexamples
-/

/-- An archive holding `site/.prefix` (content `demo`) and
`site/index.html`. -/
def siteTree : FsTree :=
  .node (strL ".") true []
    [ .node (strL "site") true []
        [ .node (strL ".prefix") false (strL "demo\n") []
        , .node (strL "index.html") false (strL "hello") [] ] ]

/-- An archive with no `.prefix` anywhere. -/
def noMarkerTree : FsTree :=
  .node (strL ".") true [] [ .node (strL "a") false (strL "x") [] ]

/-- Two markers: at `a/b/.prefix` and at `a-b/.prefix`.  The walk finds
`a/b/.prefix` first (siblings `a` before `a-b`), yet the plain string order
of the two full paths puts `a-b/.prefix` first, because `-` sorts before
`/`. -/
def twoMarkersTree : FsTree :=
  .node (strL ".") true []
    [ .node (strL "a") true []
        [ .node (strL "b") true []
            [ .node (strL ".prefix") false (strL "one") [] ] ]
    , .node (strL "a-b") true []
        [ .node (strL ".prefix") false (strL "two") [] ] ]

/-- An archive whose root `.prefix` holds only white space. -/
def wsMarkerTree : FsTree :=
  .node (strL ".") true []
    [ .node (strL ".prefix") false (strL " \t \n") []
    , .node (strL "index.html") false (strL "hi") [] ]

/-- Flags: everything defaulted, browser skipped. -/
def cfgAuto : Config := ⟨[], none, true⟩

/-- Flags: an explicit directory that does not exist in the archive. -/
def cfgBadDir : Config := ⟨[], some [strL "nope"], true⟩

/-- Flags: browser not skipped. -/
def cfgBrowser : Config := ⟨[], none, false⟩

/-- A quiet environment over `siteTree`. -/
def wSite : World := ⟨true, siteTree, false, false, false, false⟩

/-- Same environment, but `browser.OpenURL` fails. -/
def wSiteBrowserErr : World := ⟨true, siteTree, false, false, true, false⟩

/-!
## C2: the Root Resolver
-/

mutual

theorem findMarkerTree_eq : ∀ (t : FsTree) (p : FsPath),
    findMarkerTree t p =
      ((walkEnum t p).find? (fun e => e.2 = markerName)).map (fun e => e.1.dropLast)
| .node n d ct cs, p => by
  rw [findMarkerTree, walkEnum]
  by_cases h : n = markerName
  · rw [List.find?_cons_of_pos _ (by simpa using h)]
    simp [h]
  · rw [List.find?_cons_of_neg _ (by simpa using h)]
    simp only [h, if_false]
    exact findMarkerList_eq cs p

theorem findMarkerList_eq : ∀ (cs : List FsTree) (p : FsPath),
    findMarkerList cs p =
      ((walkEnumList cs p).find? (fun e => e.2 = markerName)).map (fun e => e.1.dropLast)
| [], p => by simp [findMarkerList, walkEnumList]
| c :: cs, p => by
  rw [findMarkerList, walkEnumList, List.find?_append]
  rw [findMarkerTree_eq c (p ++ [c.name]), findMarkerList_eq cs p]
  cases hA : (walkEnum c (p ++ [c.name])).find? (fun e => e.2 = markerName) <;>
    simp [Option.or]

end

/-- C2: with no explicit directory, the Root Resolver equals the
enumerate-in-walk-order-and-take-the-first-marker specification — the first
`.prefix` entry in the deterministic walk order wins, its parent directory
becomes the Resolved Directory and later matches are irrelevant — and when
the archive has no `.prefix` entry at all, the result is the logical root
`"."` (here `[]`). -/
theorem C2_rootResolver_first_match (t : FsTree) :
    findRootDirectory t = findRootDirectorySpec t ∧
    (markerPaths t = [] → findRootDirectory t = []) := by
  have key : findRootDirectory t = findRootDirectorySpec t := by
    rw [findRootDirectory, findRootDirectorySpec, findMarkerTree_eq t []]
    cases h : (walkEnum t []).find? (fun e => e.2 = markerName) <;> simp
  refine ⟨key, fun h => ?_⟩
  rw [findRootDirectory, findMarkerTree_eq t []]
  have hnone : (walkEnum t []).find? (fun e => e.2 = markerName) = none := by
    rw [List.find?_eq_none]
    intro e he
    have hfil : (walkEnum t []).filter (fun e => e.2 = markerName) = [] :=
      List.map_eq_nil_iff.mp h
    simpa using List.filter_eq_nil_iff.mp hfil e he
  simp [hnone]

/-- Witness for C2 at an archive with no marker entry. -/
theorem C2_witness :
    findRootDirectory noMarkerTree = findRootDirectorySpec noMarkerTree ∧
    findRootDirectory noMarkerTree = [] :=
  ⟨(C2_rootResolver_first_match noMarkerTree).1,
   (C2_rootResolver_first_match noMarkerTree).2 (by decide)⟩

/-!
## C10: walk order and which marker wins
-/

/-- Render a component path the way Go renders the walk's path strings. -/
def joinPath (p : FsPath) : List Char := List.intercalate (strL "/") p

theorem nameLt_irrefl (n : Name) : nameLt n n = false := by
  induction n with
  | nil => rfl
  | cons a as ih => rw [nameLt]; simp [lt_irrefl, ih]

theorem pathLt_append_cons (p : FsPath) (n : Name) (u : FsPath) :
    pathLt p (p ++ n :: u) = true := by
  induction p with
  | nil => rfl
  | cons a as ih => rw [List.cons_append, pathLt]; simp [nameLt_irrefl, ih]

theorem pathLt_append_of_nameLt {n m : Name} (h : nameLt n m = true)
    (p u v : FsPath) : pathLt (p ++ n :: u) (p ++ m :: v) = true := by
  induction p with
  | nil => simp [pathLt, h]
  | cons a as ih => rw [List.cons_append, List.cons_append, pathLt]; simp [nameLt_irrefl, ih]

mutual

theorem walkEnum_mem_extends : ∀ (t : FsTree) (p : FsPath) (e : FsPath × Name),
    e ∈ walkEnum t p → ∃ u, e.1 = p ++ u
| .node n d ct cs, p, e, h => by
  rw [walkEnum] at h
  rcases List.mem_cons.mp h with h1 | h2
  · exact ⟨[], by simp [h1]⟩
  · exact walkEnumList_mem_extends cs p e h2

theorem walkEnumList_mem_extends : ∀ (cs : List FsTree) (p : FsPath) (e : FsPath × Name),
    e ∈ walkEnumList cs p → ∃ u, e.1 = p ++ u
| [], p, e, h => by simp [walkEnumList] at h
| c :: cs, p, e, h => by
  rw [walkEnumList] at h
  rcases List.mem_append.mp h with h1 | h2
  · obtain ⟨u, hu⟩ := walkEnum_mem_extends c (p ++ [c.name]) e h1
    exact ⟨c.name :: u, by simp [hu]⟩
  · exact walkEnumList_mem_extends cs p e h2

end

theorem walkEnumList_mem_shape : ∀ (cs : List FsTree) (p : FsPath) (e : FsPath × Name),
    e ∈ walkEnumList cs p → ∃ c ∈ cs, ∃ u, e.1 = p ++ c.name :: u
| [], p, e, h => by simp [walkEnumList] at h
| c :: cs, p, e, h => by
  rw [walkEnumList] at h
  rcases List.mem_append.mp h with h1 | h2
  · obtain ⟨u, hu⟩ := walkEnum_mem_extends c (p ++ [c.name]) e h1
    exact ⟨c, List.mem_cons_self c cs, u, by simp [hu]⟩
  · obtain ⟨c', hc', u, hu⟩ := walkEnumList_mem_shape cs p e h2
    exact ⟨c', List.mem_cons_of_mem c hc', u, hu⟩

mutual

theorem walkEnum_pairwise : ∀ (t : FsTree) (p : FsPath), wellSorted t = true →
    (walkEnum t p).Pairwise (fun a b => pathLt a.1 b.1 = true)
| .node n d ct cs, p, h => by
  rw [wellSorted] at h
  obtain ⟨h1, h2⟩ := Bool.and_eq_true_iff.mp h
  rw [walkEnum]
  refine List.Pairwise.cons (fun b hb => ?_) (walkEnumList_pairwise cs p h2 h1)
  obtain ⟨c, hc, u, hu⟩ := walkEnumList_mem_shape cs p b hb
  rw [hu]
  exact pathLt_append_cons p _ u

theorem walkEnumList_pairwise : ∀ (cs : List FsTree) (p : FsPath),
    wellSortedList cs = true → pairwiseLtB (cs.map FsTree.name) = true →
    (walkEnumList cs p).Pairwise (fun a b => pathLt a.1 b.1 = true)
| [], p, _, _ => by simp [walkEnumList]
| c :: cs, p, hws, hpw => by
  rw [wellSortedList] at hws
  obtain ⟨hc, hcs⟩ := Bool.and_eq_true_iff.mp hws
  rw [List.map_cons, pairwiseLtB] at hpw
  obtain ⟨hall, hpw2⟩ := Bool.and_eq_true_iff.mp hpw
  rw [walkEnumList]
  apply List.pairwise_append.mpr
  refine ⟨walkEnum_pairwise c (p ++ [c.name]) hc,
    walkEnumList_pairwise cs p hcs hpw2, fun a ha b hb => ?_⟩
  obtain ⟨u, hu⟩ := walkEnum_mem_extends c (p ++ [c.name]) a ha
  obtain ⟨c', hc', v, hv⟩ := walkEnumList_mem_shape cs p b hb
  have hlt : nameLt c.name c'.name = true :=
    List.all_eq_true.mp hall c'.name (List.mem_map_of_mem FsTree.name hc')
  rw [hu, hv]
  have hsplit : (p ++ [c.name]) ++ u = p ++ c.name :: u := by simp
  rw [hsplit]
  exact pathLt_append_of_nameLt hlt p u v

end

/-- In a pairwise-ordered list, the first element `find?` returns is below
every other element satisfying the predicate. -/
theorem find?_min_of_pairwise {α : Type} {R : α → α → Prop} {f : α → Bool} :
    ∀ {l : List α}, l.Pairwise R → ∀ {a : α}, l.find? f = some a →
      ∀ {b : α}, b ∈ l → f b = true → R a b ∨ a = b := by
  intro l hp
  induction hp with
  | nil => intro a ha; simp [List.find?] at ha
  | @cons x l' hr hpw ih =>
    intro a ha b hb hfb
    by_cases hx : f x = true
    · rw [List.find?_cons_of_pos _ hx] at ha
      have hax : a = x := by injection ha with h; exact h.symm
      rcases List.mem_cons.mp hb with hbx | hbl
      · right; rw [hax, hbx]
      · left; rw [hax]; exact hr b hbl
    · rw [List.find?_cons_of_neg _ hx] at ha
      rcases List.mem_cons.mp hb with hbx | hbl
      · exact absurd (hbx ▸ hfb) hx
      · exact ih ha hbl hfb

/-- C10, counterexample: in `twoMarkersTree` the two marker paths are
`a/b/.prefix` and `a-b/.prefix`; the plain string order of the full paths
puts `a-b/.prefix` first (byte `-` sorts before `/`), yet the resolver
returns `a/b` — the parent of the other marker — so the marker with the
lexicographically smallest path string does not determine the Resolved
Directory. -/
theorem C10_counterexample :
    markerPaths twoMarkersTree =
      [[strL "a", strL "b", strL ".prefix"], [strL "a-b", strL ".prefix"]] ∧
    nameLt (joinPath [strL "a-b", strL ".prefix"])
      (joinPath [strL "a", strL "b", strL ".prefix"]) = true ∧
    findRootDirectory twoMarkersTree = [strL "a", strL "b"] ∧
    ¬ findRootDirectory twoMarkersTree = [strL "a-b"] := by
  decide

/-- C10, amended: root resolution is a pure deterministic function of the
archive's entry tree and the flags; over a well-sorted view (children in
name order, as the zip filesystem presents them) the walk enumerates paths
in increasing componentwise lexicographic order, so the winning `.prefix`
entry is the one whose path is smallest in that componentwise order — not in
plain string order — and its parent directory is the Resolved Directory. -/
theorem C10_walk_order_minimal (t : FsTree) (q : FsPath)
    (hs : wellSorted t = true) (hq : q ∈ markerPaths t) (m : FsPath × Name)
    (hm : (walkEnum t []).find? (fun e => e.2 = markerName) = some m) :
    (pathLt m.1 q = true ∨ m.1 = q) ∧ findRootDirectory t = m.1.dropLast := by
  rw [markerPaths] at hq
  obtain ⟨e, he, heq⟩ := List.mem_map.mp hq
  have hmem : e ∈ walkEnum t [] := (List.mem_filter.mp he).1
  have hfe : (fun (e : FsPath × Name) => decide (e.2 = markerName)) e = true :=
    (List.mem_filter.mp he).2
  constructor
  · rcases find?_min_of_pairwise (walkEnum_pairwise t [] hs) hm hmem hfe with h | h
    · left; rw [← heq]; exact h
    · right; rw [h, heq]
  · rw [findRootDirectory, findMarkerTree_eq t [], hm]
    rfl

/-- Witness for C10's amended theorem: in `twoMarkersTree` the walk-first
marker is `a/b/.prefix` and it is componentwise below `a-b/.prefix`. -/
theorem C10_witness :
    (pathLt [strL "a", strL "b", strL ".prefix"] [strL "a-b", strL ".prefix"] = true ∨
      ([strL "a", strL "b", strL ".prefix"] : FsPath) = [strL "a-b", strL ".prefix"]) ∧
    findRootDirectory twoMarkersTree =
      ([strL "a", strL "b", strL ".prefix"] : FsPath).dropLast :=
  C10_walk_order_minimal twoMarkersTree [strL "a-b", strL ".prefix"] (by decide) (by decide)
    ([strL "a", strL "b", strL ".prefix"], strL ".prefix") (by decide)

/-!
## C3 and C9: the Prefix Resolver's marker read
-/

theorem trimSpace_eq_nil_of_all_space (l : List Char) (h : l.all goIsSpace = true) :
    trimSpace l = [] := by
  rw [trimSpace]
  have h1 : l.dropWhile goIsSpace = [] := by
    rw [List.dropWhile_eq_nil_iff]
    intro x hx
    exact List.all_eq_true.mp h x hx
  rw [h1]
  rfl

/-- C3: when the explicit prefix is empty, the raw prefix comes from the
`.prefix` file directly inside the Resolved Directory; an absent (or
unopenable) file yields the empty raw prefix with no warning, an unreadable
one (read error, or a directory entry of that name) yields the empty raw
prefix with only a warning, and the run's outcome is decided solely by
directory validity and listener binding — never by this step. -/
theorem C3_marker_read_never_aborts :
    (∀ (t : FsTree) (r : Bool) (d : FsPath),
        lookupPath t (d ++ [markerName]) = none → readPrefixFromFile t r d = ([], false)) ∧
    (∀ (t : FsTree) (r : Bool) (d : FsPath) (node : FsTree),
        lookupPath t (d ++ [markerName]) = some node → (node.isDir || r) = true →
        readPrefixFromFile t r d = ([], true)) ∧
    (∀ (cfg : Config) (w : World), w.zipOk = true → cfg.pfx = [] →
        (serve cfg w).rpfx =
          normalizePrefix (readPrefixFromFile w.tree w.markerReadErr (resolveDir cfg w.tree)).1) ∧
    (∀ (cfg : Config) (w : World), w.zipOk = true →
        ((serve cfg w).outcome = .fatalExit ↔
          (validDir w.tree (resolveDir cfg w.tree) = false ∨ w.bindErr = true))) := by
  refine ⟨fun t r d h => ?_, fun t r d node h hbad => ?_, fun cfg w h hp => ?_, fun cfg w h => ?_⟩
  · rw [readPrefixFromFile, h]
  · rw [readPrefixFromFile, h]
    simp [hbad]
  · cases hv : validDir w.tree (resolveDir cfg w.tree) <;>
      cases hb : w.bindErr <;>
        simp [serve, h, hv, hb, resolveRawPfx, hp]
  · cases hv : validDir w.tree (resolveDir cfg w.tree) <;>
      cases hb : w.bindErr <;>
        simp [serve, h, hv, hb]

/-- Witness for C3: an absent marker in `noMarkerTree`, an unreadable marker
over `siteTree`, and the resolved prefix of a quiet run over `siteTree`. -/
theorem C3_witness :
    readPrefixFromFile noMarkerTree false [] = ([], false) ∧
    readPrefixFromFile siteTree true [strL "site"] = ([], true) ∧
    (serve cfgAuto wSite).rpfx =
      normalizePrefix
        (readPrefixFromFile wSite.tree wSite.markerReadErr (resolveDir cfgAuto wSite.tree)).1 :=
  ⟨C3_marker_read_never_aborts.1 noMarkerTree false [] rfl,
   C3_marker_read_never_aborts.2.1 siteTree true [strL "site"]
     (.node (strL ".prefix") false (strL "demo\n") []) rfl (by decide),
   C3_marker_read_never_aborts.2.2.1 cfgAuto wSite (by decide) (by decide)⟩

/-- C9: a marker file that exists but is empty, or whose first line is white
space only, yields the empty raw prefix with no warning — the same result as
an absent marker — and the Resolved Prefix normalizes to `/`. -/
theorem C9_blank_marker_like_absent (t : FsTree) (r : Bool) (d : FsPath) (node : FsTree)
    (hl : lookupPath t (d ++ [markerName]) = some node) (hd : node.isDir = false)
    (hr : r = false)
    (hc : node.content = [] ∨ (scanFirstLine node.content).all goIsSpace = true) :
    readPrefixFromFile t r d = ([], false) ∧
    normalizePrefix (readPrefixFromFile t r d).1 = strL "/" := by
  have key : readPrefixFromFile t r d = ([], false) := by
    rw [readPrefixFromFile, hl]
    rcases hc with hc | hc
    · simp [hd, hr, hc]
    · by_cases hce : node.content = []
      · simp [hd, hr, hce]
      · simp [hd, hr, hce, trimSpace_eq_nil_of_all_space _ hc]
  refine ⟨key, ?_⟩
  rw [key]
  decide

/-- Witness for C9 at `wsMarkerTree`, whose root marker holds only white
space. -/
theorem C9_witness :
    readPrefixFromFile wsMarkerTree false [] = ([], false) ∧
    normalizePrefix (readPrefixFromFile wsMarkerTree false []).1 = strL "/" :=
  C9_blank_marker_like_absent wsMarkerTree false []
    (.node (strL ".prefix") false (strL " \t \n") []) rfl (by decide) rfl
    (Or.inr (by decide))

/-!
## C4: validation happens before the listener
-/

/-- C4: when the Resolved Directory is missing or not a directory, the run
ends fatally and no listener is ever created; conversely a listener event
can only occur after the validation succeeded. -/
theorem C4_validate_before_listen (cfg : Config) (w : World) (h : w.zipOk = true) :
    (validDir w.tree (resolveDir cfg w.tree) = false →
      (serve cfg w).outcome = .fatalExit ∧ Event.listen ∉ (serve cfg w).events) ∧
    (Event.listen ∈ (serve cfg w).events → validDir w.tree (resolveDir cfg w.tree) = true) := by
  cases hv : validDir w.tree (resolveDir cfg w.tree)
  · constructor
    · intro _
      constructor
      · simp [serve, h, hv]
      · cases hw : (resolveRawPfx cfg w (resolveDir cfg w.tree)).2 <;>
          simp [serve, h, hv, hw]
    · intro hmem
      exfalso
      cases hw : (resolveRawPfx cfg w (resolveDir cfg w.tree)).2 <;>
        simp [serve, h, hv, hw] at hmem
  · exact ⟨fun hf => absurd hf (by decide), fun _ => rfl⟩

/-- Witness for C4: explicit directory `nope` over `siteTree`. -/
theorem C4_witness :
    (serve cfgBadDir wSite).outcome = .fatalExit ∧
    Event.listen ∉ (serve cfgBadDir wSite).events :=
  (C4_validate_before_listen cfgBadDir wSite (by decide)).1 (by decide)

/-!
## C7: release of the archive handle
-/

/-- How many times the archive handle is released in a trace. -/
def countClosed : List Event → Nat
| [] => 0
| Event.closed :: rest => countClosed rest + 1
| _ :: rest => countClosed rest

/-- C7, counterexample: with an explicit directory that is not in the
archive, the archive is opened, the run ends fatally through `log.Fatalf`
(which exits the process without running deferred functions), and the trace
holds no release of the Archive Handle — an exit path on which the handle is
not released. -/
theorem C7_counterexample :
    (serve cfgBadDir wSite).outcome = .fatalExit ∧
    Event.opened ∈ (serve cfgBadDir wSite).events ∧
    Event.closed ∉ (serve cfgBadDir wSite).events := by
  decide

/-- C7, amended: the Archive Handle is released exactly once on the normal
exit path (interrupt, graceful shutdown, return through the deferred close),
but on every fatal exit path — open failure, invalid directory, listener
error — `log.Fatalf` terminates the process without running the deferred
close, so the handle is not released by the program there. -/
theorem C7_close_normal_exit_only (cfg : Config) (w : World) :
    ((serve cfg w).outcome = .normalExit → countClosed (serve cfg w).events = 1) ∧
    ((serve cfg w).outcome = .fatalExit → Event.closed ∉ (serve cfg w).events) := by
  cases h : w.zipOk
  · constructor
    · intro hout
      simp [serve, h] at hout
    · intro _
      simp [serve, h]
  · cases hv : validDir w.tree (resolveDir cfg w.tree) <;>
      cases hb : w.bindErr <;>
        cases hw : (resolveRawPfx cfg w (resolveDir cfg w.tree)).2 <;>
          cases hbr : cfg.skipBrowser <;>
            cases hbe : w.browserErr <;>
              cases hsd : w.shutdownErr <;>
                constructor <;> intro hout <;>
                  simp_all [serve, h, hv, hb, hw, hbr, hbe, hsd, countClosed]

/-- Witness for C7's amended theorem on the quiet run over `siteTree`. -/
theorem C7_witness : countClosed (serve cfgAuto wSite).events = 1 :=
  (C7_close_normal_exit_only cfgAuto wSite).1 (by decide)

/-!
## C8: browser failure is non-fatal
-/

/-- A trace with browser warnings removed. -/
def dropBrowserWarn : List Event → List Event
| [] => []
| Event.warnBrowser :: rest => dropBrowserWarn rest
| e :: rest => e :: dropBrowserWarn rest

/-- C8: in a run that invokes the browser-opening collaborator (skip-browser
false) and where it fails, a warning is recorded, the run still ends in a
normal exit, and apart from that warning the trace is identical to the run
where the browser opens fine — the server keeps running and serving
unaffected. -/
theorem C8_browser_failure_nonfatal (cfg : Config) (w : World) (h : w.zipOk = true)
    (hsk : cfg.skipBrowser = false) (hbe : w.browserErr = true)
    (hv : validDir w.tree (resolveDir cfg w.tree) = true) (hb : w.bindErr = false) :
    Event.warnBrowser ∈ (serve cfg w).events ∧
    (serve cfg w).outcome = .normalExit ∧
    (serve cfg w).outcome = (serve cfg { w with browserErr := false }).outcome ∧
    dropBrowserWarn (serve cfg w).events =
      dropBrowserWarn (serve cfg { w with browserErr := false }).events := by
  cases hw : (resolveRawPfx cfg w (resolveDir cfg w.tree)).2 <;>
    cases hsd : w.shutdownErr <;>
      refine ⟨?_, ?_, ?_, ?_⟩ <;>
        simp_all [serve, h, hsk, hbe, hv, hb, hw, hsd, dropBrowserWarn, resolveRawPfx,
          readPrefixFromFile, resolveDir, validDir]

/-- Witness for C8: the quiet `siteTree` run with the browser failing. -/
theorem C8_witness :
    Event.warnBrowser ∈ (serve cfgBrowser wSiteBrowserErr).events ∧
    (serve cfgBrowser wSiteBrowserErr).outcome = .normalExit ∧
    (serve cfgBrowser wSiteBrowserErr).outcome =
      (serve cfgBrowser { wSiteBrowserErr with browserErr := false }).outcome ∧
    dropBrowserWarn (serve cfgBrowser wSiteBrowserErr).events =
      dropBrowserWarn (serve cfgBrowser { wSiteBrowserErr with browserErr := false }).events :=
  C8_browser_failure_nonfatal cfgBrowser wSiteBrowserErr (by decide) (by decide) (by decide)
    (by decide) (by decide)

/-!
## C6: the single route and prefix stripping
-/

/-- The sub filesystem view `fs.Sub(z, "site")` of `siteTree`. -/
def siteView : FsTree :=
  .node (strL "site") true []
    [ .node (strL ".prefix") false (strL "demo\n") []
    , .node (strL "index.html") false (strL "hello") [] ]

/-- C6, counterexample: with Resolved Prefix `/demo/`, the request path
`/demo` does not begin with the prefix, yet the mux answers it with a
permanent redirect to `/demo/` (ServeMux's trailing-slash canonicalization),
not with the not-found response the claim asserts for every non-prefix
path. -/
theorem C6_counterexample :
    (strL "/demo/").isPrefixOf (strL "/demo") = false ∧
    handleRequest (strL "/demo/") siteView (strL "/demo") = .redirect (strL "/demo/") ∧
    ¬ handleRequest (strL "/demo/") siteView (strL "/demo") = .notFound := by
  decide

/-- C6, amended: the mount registers exactly one route; a matching,
already-canonical request — the prefix followed by the path of an existing
regular file which the file server does not itself canonicalize (not ending
in `/index.html`) — is answered with that file's content after the prefix is
stripped and the remainder resolved in the directory's view; a request whose
path does not begin with the prefix receives the not-found response or a
canonicalizing permanent redirect (to the slashed registered pattern, or to
the cleaned path), and is never answered with content from the archive. -/
theorem C6_single_route_strips (pfx : List Char) (view : FsTree) :
    (mountRoutes pfx).length = 1 ∧
    (∀ (rest : List Char) (node : FsTree),
      cleanPath (pfx ++ rest) = pfx ++ rest →
      goEndsWith ('/' :: rest) (strL "/index.html") = false →
      lookupPath view (splitPath rest) = some node → node.isDir = false →
      handleRequest pfx view (pfx ++ rest) = .ok node.content) ∧
    (∀ q : List Char, pfx.isPrefixOf q = false →
      (handleRequest pfx view q = .notFound ∨
       handleRequest pfx view q = .redirect (cleanPath q ++ strL "/") ∨
       handleRequest pfx view q = .redirect (cleanPath q))) ∧
    (∀ (q c : List Char), pfx.isPrefixOf q = false →
      ¬ handleRequest pfx view q = .ok c) := by
  have main : ∀ q : List Char, pfx.isPrefixOf q = false →
      (handleRequest pfx view q = .notFound ∨
       handleRequest pfx view q = .redirect (cleanPath q ++ strL "/") ∨
       handleRequest pfx view q = .redirect (cleanPath q)) := by
    intro q hq
    by_cases h1 : cleanPath q ++ strL "/" = pfx
    · right; left; simp [handleRequest, h1]
    · by_cases h2 : cleanPath q = q
      · left
        rw [h2] at h1
        simp [handleRequest, h1, h2, hq]
      · right; right; simp [handleRequest, h1, h2]
  refine ⟨rfl, fun rest node hclean hidx hl hd => ?_, main, fun q c hq => ?_⟩
  · have hlen : ¬ ((pfx ++ rest) ++ strL "/" = pfx) := by
      intro h
      have hh := congrArg List.length h
      have hone : (strL "/").length = 1 := rfl
      simp only [List.length_append, hone] at hh
      omega
    have hpre : pfx.isPrefixOf (pfx ++ rest) = true := by
      rw [List.isPrefixOf_iff_prefix]
      exact List.prefix_append pfx rest
    rw [handleRequest]
    simp only [hclean, if_neg hlen]
    rw [if_neg (by simp)]
    simp only [hpre, if_true, List.drop_left]
    simp [serveFile, hidx, hl, hd]
  · rcases main q hq with h | h | h <;> simp [h]

/-- Witness for C6's amended theorem: `GET /demo/.prefix` over the `site`
view returns the file's content; `GET /other/` falls in the
not-found-or-redirect alternatives (here: not found). -/
theorem C6_witness :
    handleRequest (strL "/demo/") siteView (strL "/demo/" ++ strL ".prefix") =
      .ok (strL "demo\n") ∧
    (handleRequest (strL "/demo/") siteView (strL "/other/") = .notFound ∨
     handleRequest (strL "/demo/") siteView (strL "/other/") =
       .redirect (cleanPath (strL "/other/") ++ strL "/") ∨
     handleRequest (strL "/demo/") siteView (strL "/other/") =
       .redirect (cleanPath (strL "/other/"))) :=
  ⟨(C6_single_route_strips (strL "/demo/") siteView).2.1 (strL ".prefix")
     (.node (strL ".prefix") false (strL "demo\n") []) (by decide) (by decide) rfl rfl,
   (C6_single_route_strips (strL "/demo/") siteView).2.2.1 (strL "/other/") (by decide)⟩
